import Mathlib

/-!
Verification development for the directory-tree viewer (`dir_treer.py`).

The program renders a filesystem subtree as a checkbox-annotated outline.
We shallowly embed the core data model and algorithms:

* `TreeItem`   — the node class (`TreeItem.__init__`, `TreeItem.name`),
* `on_canvas_click` (checkbox branch), `recursive_check_down`,
  `recursive_check_up` — the selection-propagation machinery,
* `build_text_for_checked` — the checked-subset text export,
* `draw_tree_item` — the layout/drawing traversal (modelled as the
  sequence of emitted rows; pixel geometry from the host canvas is external),
* `build_tree_structure` — the filesystem scan (the filesystem itself is
  modelled by the inductive type `FS`; `logging.warning` is modelled by the
  separate function `scan_warnings` returning the list of logged messages).

The modelled host is POSIX (`os.name != "nt"`, `platform.system() != "Windows"`),
captured by `os_name_nt = false`.  The Python `parent` back-reference cannot be
embedded directly in a purely functional tree, so upward operations act on a
node addressed by its child-index path from the root, and the single remaining
use of the reference itself — the `item.parent is not None` test in
`build_text_for_checked` — is carried as the boolean field `has_parent`
(`False` exactly for the scan root, which is created with `parent=None`).
Scan paths are modelled as component lists; the scan root is resolved at
startup (`Path(sys.argv[1]).resolve()` in `main`), so `str(path.resolve())`
of the root is modelled by `pathStr` of its stored components.
-/

/-- `Path.name`: the last path component (`""` for an empty component list). -/
def pathName (p : List String) : String := p.getLastD ("")

/-- `str(path)` for a resolved absolute path stored as components. -/
def pathStr (p : List String) : String := String.intercalate ("/") p

/-- `os.name == "nt"`: the modelled host is POSIX. -/
def os_name_nt : Bool := false

/-- One file or folder in the directory tree (`class TreeItem`):
`path`, `is_dir = path.is_dir()`, `parent` (here: `has_parent`, see module
comment), `checked` (default `True`), `expanded` (`False` for directories,
`None` i.e. `none` otherwise), and the `children` list. -/
inductive TreeItem : Type where
  | mk (path : List String) (is_dir : Bool) (has_parent : Bool) (checked : Bool)
       (expanded : Option Bool) (children : List TreeItem)

def TreeItem.path : TreeItem → List String
  | .mk p _ _ _ _ _ => p

def TreeItem.is_dir : TreeItem → Bool
  | .mk _ d _ _ _ _ => d

def TreeItem.has_parent : TreeItem → Bool
  | .mk _ _ hp _ _ _ => hp

def TreeItem.checked : TreeItem → Bool
  | .mk _ _ _ ck _ _ => ck

def TreeItem.expanded : TreeItem → Option Bool
  | .mk _ _ _ _ ex _ => ex

def TreeItem.children : TreeItem → List TreeItem
  | .mk _ _ _ _ _ ch => ch

/-- The `name` property: display name, with a trailing slash/backslash for
directories. -/
def TreeItem.name (t : TreeItem) : String :=
  if t.is_dir then pathName t.path ++ (if os_name_nt then ("\\") else ("/"))
  else pathName t.path

/-- `item.checked = v` (field assignment). -/
def set_checked : TreeItem → Bool → TreeItem
  | .mk p d hp _ ex ch, v => .mk p d hp v ex ch

/-- Replacing the `children` list of a node. -/
def set_children : TreeItem → List TreeItem → TreeItem
  | .mk p d hp ck ex _, ch => .mk p d hp ck ex ch

/-- `child.parent = root` in `build_tree_structure`: the child now has a
parent, so its `has_parent` flag becomes `true`. -/
def set_parent : TreeItem → TreeItem
  | .mk p d _ ck ex ch => .mk p d true ck ex ch

/-- A node of the tree addressed by the path of child indices from `t`. -/
def nodeAt : TreeItem → List Nat → Option TreeItem
  | t, [] => some t
  | t, i :: rest =>
    match t.children[i]? with
    | none => none
    | some c => nodeAt c rest

/-- The `checked` flag of the node at a position. -/
def checkedAt (t : TreeItem) (pos : List Nat) : Option Bool :=
  (nodeAt t pos).map TreeItem.checked

/-- Replace the `i`-th element of a list (identity when out of range). -/
def modifyChildren : List TreeItem → Nat → (TreeItem → TreeItem) → List TreeItem
  | [], _, _ => []
  | c :: cs, 0, g => g c :: cs
  | c :: cs, n + 1, g => c :: modifyChildren cs n g

/-- Apply `f` to the node at `pos` (in-place mutation of that node, expressed
functionally). -/
def modifyAt (t : TreeItem) (pos : List Nat) (f : TreeItem → TreeItem) : TreeItem :=
  match pos with
  | [] => f t
  | i :: rest => set_children t (modifyChildren t.children i (fun c => modifyAt c rest f))

mutual

/-- `recursive_check_down(folder_item, new_state)`: recursively set the
`checked` state for all children of a folder. -/
def recursive_check_down : TreeItem → Bool → TreeItem
  | .mk p d hp ck ex ch, new_state => .mk p d hp ck ex (check_down_children ch new_state)

/-- The `for child in folder_item.children` loop of `recursive_check_down`. -/
def check_down_children : List TreeItem → Bool → List TreeItem
  | [], _ => []
  | c :: cs, new_state => check_down_child c new_state :: check_down_children cs new_state

/-- The loop body of `recursive_check_down`: the child gets
`child.checked = new_state`, and the recursion descends iff `child.is_dir`. -/
def check_down_child : TreeItem → Bool → TreeItem
  | .mk p true hp _ ex ch, new_state => .mk p true hp new_state ex (check_down_children ch new_state)
  | .mk p false hp _ ex ch, new_state => .mk p false hp new_state ex ch

end

/-- `recursive_check_up(item)` for the node at `pos`, expressed top-down.
Walking up from the clicked item, each ancestor satisfying
`parent and parent.is_dir and not parent.checked` is set to `checked = True`
and the walk continues; otherwise it stops.  The returned boolean is `true`
when the walk is still running at (i.e. has just processed the subtree below)
the current node, so that the caller — the parent — is the next candidate;
at the clicked item itself (`pos = []`) the walk starts unconditionally. -/
def recursive_check_up : TreeItem → List Nat → TreeItem × Bool
  | t, [] => (t, true)
  | t, i :: rest =>
    match t.children[i]? with
    | none => (t, false)
    | some c =>
      let r := recursive_check_up c rest
      let t2 := set_children t (modifyChildren t.children i (fun _ => r.1))
      if r.2 then
        if t2.is_dir && !t2.checked then (set_checked t2 true, true) else (t2, false)
      else (t2, false)

/-- The checkbox branch of `on_canvas_click` for the item at `pos`:
`new_state = not item.checked`; `item.checked = new_state`; if the item is a
directory, `recursive_check_down(item, new_state)`; otherwise, if
`new_state` holds, `recursive_check_up(item)` (which mutates ancestors only,
hence runs on the whole tree after the local update). -/
def on_canvas_click (t : TreeItem) (pos : List Nat) : TreeItem :=
  match nodeAt t pos with
  | none => t
  | some item =>
    let new_state := !item.checked
    let t1 := modifyAt t pos (fun it =>
      let it2 := set_checked it new_state
      if it2.is_dir then recursive_check_down it2 new_state else it2)
    if item.is_dir then t1
    else if new_state then (recursive_check_up t1 pos).1 else t1

theorem sizeOf_filter_le (q : TreeItem → Bool) (l : List TreeItem) :
    sizeOf (l.filter q) ≤ sizeOf l := by
  induction l with
  | nil => simp
  | cons a as ih =>
    by_cases h : q a = true
    · simp only [List.filter_cons, h, if_pos, List.cons.sizeOf_spec]
      omega
    · simp only [List.filter_cons, h]
      simp only [Bool.false_eq_true, if_false, List.cons.sizeOf_spec]
      have : 0 < sizeOf a := by cases a <;> simp +arith
      omega

mutual

/-- `build_text_for_checked(item, lines, prefix, is_last)`: the recursive
export of checked items (the `lines` accumulator becomes the return value).
Unchecked items return at once; the item's own line is the resolved path for
the root (`item.parent is None`), otherwise the branch-glyph line; then the
checked children are rendered in order, the last one with the `is_last`
connector. -/
def build_text_for_checked : TreeItem → String → Bool → List String
  | .mk p d hp ck ex ch, pre, is_last =>
    if ck = false then []
    else
      let connector := if is_last then ("└──") else ("├──")
      let line := if hp then pre ++ connector ++ (" ") ++ TreeItem.name (.mk p d hp ck ex ch)
                  else pathStr p ++ (if d then (if os_name_nt then ("\\") else ("/")) else (""))
      line :: build_text_children (ch.filter TreeItem.checked)
        (pre ++ (if is_last then ("    ") else ("│   ")))
termination_by t _ _ => sizeOf t
decreasing_by
  have := sizeOf_filter_le TreeItem.checked ch
  simp only [TreeItem.mk.sizeOf_spec]
  omega

/-- The `for i, child in enumerate(checked_children)` loop:
`child_is_last = (i == cnt - 1)`. -/
def build_text_children : List TreeItem → String → List String
  | [], _ => []
  | [c], deeper => build_text_for_checked c deeper true
  | c :: c2 :: rest, deeper =>
    build_text_for_checked c deeper false ++ build_text_children (c2 :: rest) deeper
termination_by cs _ => sizeOf cs
decreasing_by
  · simp +arith
  · simp +arith
  · simp +arith

end

mutual

/-- Spec-side definition (for claim C8): the restriction of a tree to its
checked subset — unchecked children, with their whole subtrees, are removed. -/
def prune : TreeItem → TreeItem
  | .mk p d hp ck ex ch => .mk p d hp ck ex (pruneL ch)

def pruneL : List TreeItem → List TreeItem
  | [] => []
  | c :: cs => if c.checked then prune c :: pruneL cs else pruneL cs

end

mutual

/-- Spec-side definition (for claim C8): the classic ASCII tree rendering of a
whole tree — every node is emitted, and a node gets the `is_last` right-angle
connector iff it is the last element of its parent's `children`. -/
def ascii_lines : TreeItem → String → Bool → List String
  | .mk p d hp ck ex ch, pre, is_last =>
    let connector := if is_last then ("└──") else ("├──")
    let line := if hp then pre ++ connector ++ (" ") ++ TreeItem.name (.mk p d hp ck ex ch)
                else pathStr p ++ (if d then (if os_name_nt then ("\\") else ("/")) else (""))
    line :: ascii_children ch (pre ++ (if is_last then ("    ") else ("│   ")))

def ascii_children : List TreeItem → String → List String
  | [], _ => []
  | [c], deeper => ascii_lines c deeper true
  | c :: c2 :: rest, deeper => ascii_lines c deeper false ++ ascii_children (c2 :: rest) deeper

end

/-- One row of the canvas drawing: the branch prefix-and-connector string, the
expand arrow (empty for files), and the display name.  Pixel positions come
from the host canvas's font metrics and are external to the model. -/
structure DrawRow where
  conn : String
  arrow : String
  label : String

mutual

/-- `draw_tree_item(item, prefix, is_last)`: emit one row for the item
(bracket glyph, directory-only arrow `▼`/`►`, `prefix + connector`, name),
then recurse into the children iff the item is a directory and expanded. -/
def draw_tree_item : TreeItem → String → Bool → List DrawRow
  | .mk p d hp ck ex ch, pre, is_last =>
    let connector := if is_last then ("└──") else ("├──")
    let arrow_str := if d then (if ex == some true then ("▼") else ("►")) else ("")
    (⟨pre ++ connector, arrow_str, TreeItem.name (.mk p d hp ck ex ch)⟩ : DrawRow) ::
      (if d && (ex == some true) then
        draw_children ch (pre ++ (if is_last then ("    ") else ("│   ")))
       else [])

/-- The `for i, child in enumerate(item.children)` loop of `draw_tree_item`:
`child_is_last = (i == child_count - 1)`. -/
def draw_children : List TreeItem → String → List DrawRow
  | [], _ => []
  | [c], deeper => draw_tree_item c deeper true
  | c :: c2 :: rest, deeper => draw_tree_item c deeper false ++ draw_children (c2 :: rest) deeper

end

mutual

/-- Spec-side definition (for claim C9): the number of visible rows of a
subtree — the node itself, plus its descendants exactly when the node is an
expanded directory. -/
def visibleRowCount : TreeItem → Nat
  | .mk _ d _ _ ex ch => 1 + (if d && (ex == some true) then visibleRowCountL ch else 0)

def visibleRowCountL : List TreeItem → Nat
  | [] => 0
  | c :: cs => visibleRowCount c + visibleRowCountL cs

end

mutual

/-- Invariant I2 as a boolean predicate: at every node of the tree, a checked
child implies a checked parent. -/
def i2B : TreeItem → Bool
  | .mk _ _ _ ck _ ch => ch.all (fun c => !c.checked || ck) && i2L ch

def i2L : List TreeItem → Bool
  | [] => true
  | c :: cs => i2B c && i2L cs

end

mutual

/-- Every node of the subtree (itself included) has `checked = v`. -/
def allCheckedEq : TreeItem → Bool → Bool
  | .mk _ _ _ ck _ ch, v => (ck == v) && allCheckedEqL ch v

def allCheckedEqL : List TreeItem → Bool → Bool
  | [], _ => true
  | c :: cs, v => allCheckedEq c v && allCheckedEqL cs v

end

mutual

/-- No node of the subtree is checked. -/
def noneChecked : TreeItem → Bool
  | .mk _ _ _ ck _ ch => !ck && noneCheckedL ch

def noneCheckedL : List TreeItem → Bool
  | [] => true
  | c :: cs => noneChecked c && noneCheckedL cs

end

mutual

/-- Well-formedness of a scanned tree: non-directories have no children
(files/sockets get an empty `children` list at creation and the scan only adds
children to directories). -/
def wfB : TreeItem → Bool
  | .mk _ d _ _ _ ch => (d || ch.isEmpty) && wfL ch

def wfL : List TreeItem → Bool
  | [] => true
  | c :: cs => wfB c && wfL cs

end

/-- A filesystem entry as observed by the scanner through `pathlib.Path`:
a directory whose `iterdir()` either succeeds with an entry list or raises
`PermissionError` (the `Except.error` case), a regular file, or an entry that
is neither (`is_dir()` and `is_file()` both false: broken symlink, socket,
device file, ...). -/
inductive FS : Type where
  | dir (name : String) (listing : Except Unit (List FS))
  | file (name : String)
  | other (name : String)

def FS.name : FS → String
  | .dir n _ => n
  | .file n => n
  | .other n => n

def FS.is_dir : FS → Bool
  | .dir _ _ => true
  | _ => false

def FS.is_file : FS → Bool
  | .file _ => true
  | _ => false

/-- `is_hidden` on the POSIX branch (`platform.system() != "Windows"`):
a Unix dotfile test on the entry's name. -/
def is_hidden (e : FS) : Bool := e.name.startsWith (".")

/-- Insert into a sorted list: the comparison-sort model of Python's
`list.sort(key=...)` (any comparison sort; only the ordering of the result
matters to the program). -/
def insertSorted (le : α → α → Bool) (a : α) : List α → List α
  | [] => [a]
  | b :: bs => if le a b then a :: b :: bs else b :: insertSorted le a bs

/-- Sort a list ascending with respect to the boolean comparison `le`. -/
def sortByB (le : α → α → Bool) : List α → List α
  | [] => []
  | a :: as => insertSorted le a (sortByB le as)

/-- The sort key `p.name.lower()` used for both groups. -/
def fs_key (e : FS) : String := e.name.toLower

/-- The comparison induced by the key. -/
def fs_le (a b : FS) : Bool := decide (fs_key a ≤ fs_key b)

/-- The entry list a scanned directory recurses into: split the listing into
directories and files (anything else is dropped), sort each group by
lower-cased name, concatenate directories first, and — when `exclude_hidden`
— drop entries for which `is_hidden` holds. -/
def kept_entries (l : List FS) (exclude_hidden : Bool) : List FS :=
  let dirs := sortByB fs_le (l.filter FS.is_dir)
  let files := sortByB fs_le (l.filter FS.is_file)
  let sorted_entries := dirs ++ files
  if exclude_hidden then sorted_entries.filter (fun e => !is_hidden e) else sorted_entries

theorem mem_insertSorted {le : α → α → Bool} {a x : α} {l : List α} :
    x ∈ insertSorted le a l ↔ x = a ∨ x ∈ l := by
  induction l with
  | nil => simp [insertSorted]
  | cons b bs ih =>
    by_cases h : le a b = true <;> simp [insertSorted, h, ih] <;> tauto

theorem mem_sortByB {le : α → α → Bool} {x : α} {l : List α} :
    x ∈ sortByB le l ↔ x ∈ l := by
  induction l with
  | nil => simp [sortByB]
  | cons a as ih => simp [sortByB, mem_insertSorted, ih]

theorem mem_kept_entries {l : List FS} {eh : Bool} {e : FS}
    (h : e ∈ kept_entries l eh) : e ∈ l := by
  unfold kept_entries at h
  cases eh <;>
    simp only [Bool.false_eq_true, if_true, if_false, List.mem_filter,
      List.mem_append, mem_sortByB] at h
  · rcases h with h | h <;> exact h.1
  · rcases h.1 with h1 | h1 <;> exact h1.1

theorem sizeOf_mem_kept {l : List FS} {eh : Bool} {e : FS} {n : String}
    (h : e ∈ kept_entries l eh) : sizeOf e < sizeOf (FS.dir n (.ok l)) := by
  have h1 : sizeOf e < sizeOf l := List.sizeOf_lt_of_mem (mem_kept_entries h)
  simp only [FS.dir.sizeOf_spec, Except.ok.sizeOf_spec]
  omega

/-- `build_tree_structure(directory, exclude_hidden)`: recursively build the
`TreeItem` hierarchy.  The root node is created from the path (checked,
collapsed if a directory, no children yet, `parent=None`); for a listable
directory the kept entries are scanned recursively and appended (their
`parent` set to the node); `PermissionError` from `iterdir()` makes the
directory a childless leaf (the warning log is modelled by `scan_warnings`). -/
def build_tree_structure (p : List String) (e : FS) (exclude_hidden : Bool) : TreeItem :=
  match e with
  | .file _ => .mk p false false true none []
  | .other _ => .mk p false false true none []
  | .dir _ (.error _) => .mk p true false true (some false) []
  | .dir _ (.ok l) =>
    .mk p true false true (some false)
      ((kept_entries l exclude_hidden).attach.map
        (fun x => set_parent (build_tree_structure (p ++ [x.1.name]) x.1 exclude_hidden)))
termination_by sizeOf e
decreasing_by exact sizeOf_mem_kept x.2

/-- The `logging.warning` calls issued during `build_tree_structure`, in scan
order (one `Permission denied` message per unlistable directory). -/
def scan_warnings (p : List String) (e : FS) (exclude_hidden : Bool) : List String :=
  match e with
  | .dir _ (.error _) => ["Permission denied: " ++ pathStr p]
  | .dir _ (.ok l) =>
    ((kept_entries l exclude_hidden).attach.map
      (fun x => scan_warnings (p ++ [x.1.name]) x.1 exclude_hidden)).flatten
  | _ => []
termination_by sizeOf e
decreasing_by exact sizeOf_mem_kept x.2

/-- The filesystem with every entry that is neither a directory nor a regular
file removed from every listing (spec-side definition for claim C10). -/
def keep_entry (e : FS) : Bool := e.is_dir || e.is_file

def purgeFS (e : FS) : FS :=
  match e with
  | .dir n (.ok l) =>
    .dir n (.ok ((l.filter keep_entry).attach.map (fun x => purgeFS x.1)))
  | e => e
termination_by sizeOf e
decreasing_by
  have h1 : sizeOf x.1 < sizeOf l := List.sizeOf_lt_of_mem (List.mem_filter.mp x.2).1
  simp only [FS.dir.sizeOf_spec, Except.ok.sizeOf_spec]
  omega

theorem build_dir_ok (p : List String) (n : String) (l : List FS) (eh : Bool) :
    build_tree_structure p (.dir n (.ok l)) eh =
      .mk p true false true (some false)
        ((kept_entries l eh).map
          (fun e => set_parent (build_tree_structure (p ++ [e.name]) e eh))) := by
  rw [build_tree_structure]
  rw [List.attach_map_val (kept_entries l eh)
    (fun e => set_parent (build_tree_structure (p ++ [e.name]) e eh))]

theorem warnings_dir_ok (p : List String) (n : String) (l : List FS) (eh : Bool) :
    scan_warnings p (.dir n (.ok l)) eh =
      ((kept_entries l eh).map (fun e => scan_warnings (p ++ [e.name]) e eh)).flatten := by
  rw [scan_warnings]
  rw [List.attach_map_val (kept_entries l eh)
    (fun e => scan_warnings (p ++ [e.name]) e eh)]

theorem purge_dir_ok (n : String) (l : List FS) :
    purgeFS (.dir n (.ok l)) = .dir n (.ok ((l.filter keep_entry).map purgeFS)) := by
  rw [purgeFS]
  rw [List.attach_map_val (l.filter keep_entry) purgeFS]

/-- Induction over the filesystem model, with the inductive hypothesis
available for every entry of a successful listing. -/
theorem FS.fsInduction (P : FS → Prop)
    (hfile : ∀ n, P (.file n)) (hother : ∀ n, P (.other n))
    (herr : ∀ n u, P (.dir n (.error u)))
    (hok : ∀ n l, (∀ e, e ∈ l → P e) → P (.dir n (.ok l))) : ∀ e, P e
  | .file n => hfile n
  | .other n => hother n
  | .dir n (.error u) => herr n u
  | .dir n (.ok l) =>
    hok n l (fun e he => FS.fsInduction P hfile hother herr hok e)
termination_by e => sizeOf e
decreasing_by
  have h1 : sizeOf e < sizeOf l := List.sizeOf_lt_of_mem he
  simp only [FS.dir.sizeOf_spec, Except.ok.sizeOf_spec]
  omega

/-- Induction over trees, with the inductive hypothesis available for every
child. -/
theorem TreeItem.treeInduction (P : TreeItem → Prop)
    (h : ∀ p d hp ck ex ch, (∀ c, c ∈ ch → P c) → P (.mk p d hp ck ex ch)) : ∀ t, P t
  | .mk p d hp ck ex ch =>
    h p d hp ck ex ch (fun c hc => TreeItem.treeInduction P h c)
termination_by t => sizeOf t
decreasing_by
  have h1 : sizeOf c < sizeOf ch := List.sizeOf_lt_of_mem hc
  simp only [TreeItem.mk.sizeOf_spec]
  omega

/-- Example file node `/r/d/f` (default state straight after a scan). -/
def exF : TreeItem := .mk (["", "r", "d", "f"]) false true true none []

/-- Example directory node `/r/d` containing `exF`. -/
def exD : TreeItem := .mk (["", "r", "d"]) true true true (some false) [exF]

/-- Example file node `/r/g`. -/
def exG : TreeItem := .mk (["", "r", "g"]) false true true none []

/-- Example scan root `/r` with children `exD` (a directory, sorted first)
and `exG`: the default post-scan state — everything checked, root expanded. -/
def exR : TreeItem := .mk (["", "r"]) true false true (some true) [exD, exG]

/-- C1 (refuted — code bug): "after every `toggleChecked` call, invariant I2
holds: `N.checked` implies `N.parent == null` or `N.parent.checked`".
Counterexample run: from the default post-scan state `exR` (everything
checked), a first checkbox click on the root unchecks the entire tree (I2
still holds there), and a second click on the subdirectory at position `[0]`
makes that directory and its subtree checked while its parent, the root,
stays unchecked — `on_canvas_click` reaches `recursive_check_up` only for
non-directories.  I2 is violated after that second `toggleChecked`. -/
theorem c1_i2_violated_by_dir_toggle :
    i2B exR = true ∧
    i2B (on_canvas_click exR []) = true ∧
    i2B (on_canvas_click (on_canvas_click exR []) [0]) = false := by decide

/-- C2 (refuted — code bug): "when `toggleChecked(n)` flips `n.checked` to
`true`, every ancestor of `n` whose `checked` is `false` is set to `true` —
in particular when `n` is a directory".  In the same run as for C1: the
second click toggles the directory at position `[0]` from unchecked to
checked (so `newValue == true`), yet the root ancestor — unchecked at that
moment — remains unchecked, since the directory branch of `on_canvas_click`
never calls `recursive_check_up`. -/
theorem c2_no_cascade_up_for_directories :
    checkedAt (on_canvas_click exR []) [0] = some false ∧
    checkedAt (on_canvas_click exR []) [] = some false ∧
    checkedAt (on_canvas_click (on_canvas_click exR []) [0]) [0] = some true ∧
    checkedAt (on_canvas_click (on_canvas_click exR []) [0]) [] = some false := by decide

/-- For contrast with C1/C2: toggling the *file* at position `[1]` to checked
does cascade up and re-checks the unchecked root, as documented — the
asymmetry is specific to directory toggles. -/
example : checkedAt (on_canvas_click (on_canvas_click exR []) [1]) [] = some true := by decide

theorem checked_set_children (t : TreeItem) (ch : List TreeItem) :
    (set_children t ch).checked = t.checked := by
  cases t
  rfl

theorem children_set_children (t : TreeItem) (ch : List TreeItem) :
    (set_children t ch).children = ch := by
  cases t
  rfl

theorem is_dir_set_checked (t : TreeItem) (v : Bool) :
    (set_checked t v).is_dir = t.is_dir := by
  cases t
  rfl

theorem modifyChildren_getElem_self (l : List TreeItem) (i : Nat) (g : TreeItem → TreeItem) :
    (modifyChildren l i g)[i]? = (l[i]?).map g := by
  induction l generalizing i with
  | nil => cases i <;> rfl
  | cons c cs ih =>
    cases i with
    | zero => simp [modifyChildren]
    | succ n =>
      simp only [modifyChildren, List.getElem?_cons_succ]
      exact ih n

theorem nodeAt_modifyAt_self (pos : List Nat) (t item : TreeItem) (f : TreeItem → TreeItem)
    (hn : nodeAt t pos = some item) :
    nodeAt (modifyAt t pos f) pos = some (f item) := by
  induction pos generalizing t with
  | nil =>
    simp only [nodeAt] at hn
    cases hn
    rfl
  | cons i rest ih =>
    rw [nodeAt] at hn
    rw [modifyAt, nodeAt, children_set_children, modifyChildren_getElem_self]
    cases hg : t.children[i]? with
    | none => rw [hg] at hn; exact absurd hn (by simp)
    | some c =>
      rw [hg] at hn
      exact ih c hn

theorem checkedAt_modifyAt_of_proper_prefix (q : List Nat) :
    ∀ (pos : List Nat) (t : TreeItem) (f : TreeItem → TreeItem),
      q <+: pos → q ≠ pos → checkedAt (modifyAt t pos f) q = checkedAt t q := by
  induction q with
  | nil =>
    intro pos t f _ hne
    cases pos with
    | nil => exact absurd rfl hne
    | cons i rest =>
      show (nodeAt (modifyAt t (i :: rest) f) []).map TreeItem.checked =
        (nodeAt t []).map TreeItem.checked
      rw [modifyAt]
      simp only [nodeAt, Option.map_some']
      rw [checked_set_children]
  | cons j q2 ih =>
    intro pos t f hq hne
    obtain ⟨r, hr⟩ := hq
    cases pos with
    | nil => simp at hr
    | cons i rest =>
      have hj : j = i := by
        have := hr
        simp only [List.cons_append, List.cons.injEq] at this
        exact this.1
      have hrest : q2 ++ r = rest := by
        have := hr
        simp only [List.cons_append, List.cons.injEq] at this
        exact this.2
      subst hj
      have hq2 : q2 <+: rest := ⟨r, hrest⟩
      have hne2 : q2 ≠ rest := by
        intro hcon
        apply hne
        rw [hcon]
      unfold checkedAt at *
      rw [modifyAt]
      simp only [nodeAt, children_set_children, modifyChildren_getElem_self]
      cases hg : t.children[j]? with
      | none => rfl
      | some c =>
        simp only [Option.map_some]
        exact ih rest c f hq2 hne2

theorem wfL_mem {cs : List TreeItem} {c : TreeItem} (h : wfL cs = true) (hc : c ∈ cs) :
    wfB c = true := by
  induction cs with
  | nil => cases hc
  | cons a as ih =>
    rw [wfL, Bool.and_eq_true] at h
    rcases List.mem_cons.mp hc with rfl | hmem
    · exact h.1
    · exact ih h.2 hmem

theorem wf_nodeAt {t item : TreeItem} {pos : List Nat}
    (hw : wfB t = true) (hn : nodeAt t pos = some item) : wfB item = true := by
  induction pos generalizing t with
  | nil =>
    simp only [nodeAt] at hn
    cases hn
    exact hw
  | cons i rest ih =>
    rw [nodeAt] at hn
    cases hg : t.children[i]? with
    | none => rw [hg] at hn; exact absurd hn (by simp)
    | some c =>
      rw [hg] at hn
      have hcmem : c ∈ t.children := List.getElem?_mem hg
      have hwl : wfL t.children = true := by
        cases t with
        | mk p d hp ck ex ch =>
          rw [wfB, Bool.and_eq_true] at hw
          exact hw.2
      exact ih (wfL_mem hwl hcmem) hn

theorem allCheckedEqL_check_down :
    ∀ (cs : List TreeItem) (v : Bool), wfL cs = true →
      allCheckedEqL (check_down_children cs v) v = true
  | [], _, _ => by rw [check_down_children, allCheckedEqL]
  | .mk p d hp ck ex ch :: cs, v, h => by
    rw [wfL, Bool.and_eq_true] at h
    have htail := allCheckedEqL_check_down cs v h.2
    rw [check_down_children, allCheckedEqL, htail, Bool.and_true]
    have hch : wfL ch = true := by
      have := h.1
      rw [wfB, Bool.and_eq_true] at this
      exact this.2
    cases d with
    | true =>
      have hhead := allCheckedEqL_check_down ch v hch
      rw [check_down_child, allCheckedEq, hhead]
      simp
    | false =>
      have hempty : ch = [] := by
        have := h.1
        rw [wfB, Bool.and_eq_true] at this
        have h1 := this.1
        simp only [Bool.false_or] at h1
        exact List.isEmpty_iff.mp h1
      subst hempty
      rw [check_down_child, allCheckedEq, allCheckedEqL]
      simp
termination_by cs => sizeOf cs
decreasing_by
  · simp +arith
  · simp only [List.cons.sizeOf_spec, TreeItem.mk.sizeOf_spec]
    omega

/-- C3: for a well-formed tree (files are childless, as produced by the scan),
clicking the checkbox of a directory node — which sets `item.checked` to the
toggled value and runs `recursive_check_down` — leaves that node and every
one of its descendants with `checked` equal to the new value, regardless of
their prior state. -/
theorem c3_cascade_down_sets_subtree (t : TreeItem) (pos : List Nat) (item : TreeItem)
    (hn : nodeAt t pos = some item) (hd : item.is_dir = true) (hw : wfB t = true) :
    ∃ s, nodeAt (on_canvas_click t pos) pos = some s ∧
      allCheckedEq s (!item.checked) = true := by
  have hwi : wfB item = true := wf_nodeAt hw hn
  rw [on_canvas_click, hn]
  simp only [hd, if_true]
  refine ⟨_, nodeAt_modifyAt_self pos t item _ hn, ?_⟩
  rw [is_dir_set_checked, hd]
  simp only [if_true]
  cases item with
  | mk p d hp ck ex ch =>
    have hch : wfL ch = true := by
      rw [wfB, Bool.and_eq_true] at hwi
      exact hwi.2
    rw [set_checked, recursive_check_down, TreeItem.checked, allCheckedEq,
      allCheckedEqL_check_down ch _ hch]
    simp

/-- Witness for C3 at a concrete input: the directory `exD` with its single
file child, toggled at the root of its own subtree. -/
theorem c3_witness :
    ∃ s, nodeAt (on_canvas_click exD []) [] = some s ∧
      allCheckedEq s (!TreeItem.checked exD) = true :=
  c3_cascade_down_sets_subtree exD [] exD rfl rfl (by decide)

/-- C4: clicking the checkbox of a node whose `checked` is currently `true`
(so the new value is `false`, an un-check) leaves the `checked` flag of every
ancestor — every proper prefix position — unchanged. -/
theorem c4_uncheck_preserves_ancestors (t : TreeItem) (pos q : List Nat) (item : TreeItem)
    (hn : nodeAt t pos = some item) (hc : item.checked = true)
    (hq : q <+: pos) (hne : q ≠ pos) :
    checkedAt (on_canvas_click t pos) q = checkedAt t q := by
  rw [on_canvas_click, hn]
  simp only [hc, Bool.not_true, Bool.false_eq_true, if_false]
  cases hdi : item.is_dir <;> simp only [Bool.false_eq_true, if_false, if_true] <;>
    exact checkedAt_modifyAt_of_proper_prefix q pos t _ hq hne

/-- Witness for C4 at a concrete input: un-checking the subdirectory `exD`
(position `[0]` of `exR`) leaves the root's `checked` flag unchanged. -/
theorem c4_witness :
    checkedAt (on_canvas_click exR [0]) [] = checkedAt exR [] :=
  c4_uncheck_preserves_ancestors exR [0] [] exD rfl rfl List.nil_prefix (by decide)

theorem noneCheckedL_mem {cs : List TreeItem} {c : TreeItem}
    (h : noneCheckedL cs = true) (hc : c ∈ cs) : noneChecked c = true := by
  induction cs with
  | nil => cases hc
  | cons a as ih =>
    rw [noneCheckedL, Bool.and_eq_true] at h
    rcases List.mem_cons.mp hc with rfl | hmem
    · exact h.1
    · exact ih h.2 hmem

theorem noneChecked_checked_false {c : TreeItem} (h : noneChecked c = true) :
    c.checked = false := by
  cases c with
  | mk p d hp ck ex ch =>
    rw [noneChecked, Bool.and_eq_true] at h
    have := h.1
    rw [TreeItem.checked]
    cases ck
    · rfl
    · exact absurd this (by simp)

/-- C7: the export is empty when no node of the tree is checked; and when
only the root is checked (root checked, no node below it checked), it is the
single line `str(root.path.resolve())`, with a trailing directory separator
iff the root is a directory. -/
theorem c7_export_empty_and_root_only (t : TreeItem) (pre : String) (il : Bool) :
    (noneChecked t = true → build_text_for_checked t pre il = []) ∧
    (t.has_parent = false → t.checked = true → noneCheckedL t.children = true →
      build_text_for_checked t pre il =
        [pathStr t.path ++
          (if t.is_dir then (if os_name_nt then ("\\") else ("/")) else (""))]) := by
  cases t with
  | mk p d hp ck ex ch =>
    constructor
    · intro hnone
      have hck : ck = false := by
        have := noneChecked_checked_false hnone
        rwa [TreeItem.checked] at this
      subst hck
      rw [build_text_for_checked]
      simp
    · intro hhp hck hnone
      rw [TreeItem.has_parent] at hhp
      rw [TreeItem.checked] at hck
      subst hhp
      subst hck
      have hfil : ch.filter TreeItem.checked = [] := by
        rw [List.filter_eq_nil_iff]
        intro c hc
        simp [noneChecked_checked_false (noneCheckedL_mem hnone hc)]
      rw [build_text_for_checked]
      rw [hfil]
      rw [build_text_children]
      simp [TreeItem.path, TreeItem.is_dir]

/-- Example tree with no node checked. -/
def exU : TreeItem :=
  .mk (["", "u"]) true false false (some true) [.mk (["", "u", "a"]) false true false none []]

/-- Example tree with only the root checked. -/
def exO : TreeItem :=
  .mk (["", "o"]) true false true (some true) [.mk (["", "o", "a"]) false true false none []]

/-- Witness for C7 at concrete inputs: the all-unchecked tree `exU` exports
nothing; the root-only-checked tree `exO` exports exactly its resolved root
path with a trailing separator. -/
theorem c7_witness :
    build_text_for_checked exU ("") true = [] ∧
    build_text_for_checked exO ("") true =
      [pathStr (TreeItem.path exO) ++
        (if TreeItem.is_dir exO then (if os_name_nt then ("\\") else ("/")) else (""))] :=
  ⟨(c7_export_empty_and_root_only exU ("") true).1 (by decide),
   (c7_export_empty_and_root_only exO ("") true).2 rfl rfl (by decide)⟩

theorem pruneL_eq (cs : List TreeItem) :
    pruneL cs = (cs.filter TreeItem.checked).map prune := by
  induction cs with
  | nil => rfl
  | cons c cs ih =>
    rw [pruneL, List.filter_cons]
    cases h : c.checked with
    | true => simp [h, ih]
    | false => simp [h, ih]

mutual

/-- C8: the export traversal equals the full classic ASCII rendering of the
tree pruned to its checked subset — an unchecked node (the root included)
contributes nothing, recursion descends only into checked children, and the
`is_last` right-angle connector is chosen exactly at the last element of the
parent's list of checked children. -/
theorem c8_export_is_pruned_ascii : ∀ (t : TreeItem) (pre : String) (il : Bool),
    build_text_for_checked t pre il =
      if t.checked = true then ascii_lines (prune t) pre il else []
  | .mk p d hp ck ex ch, pre, il => by
    cases ck with
    | false =>
      rw [build_text_for_checked]
      simp [TreeItem.checked]
    | true =>
      rw [build_text_for_checked]
      simp only [TreeItem.checked, Bool.true_eq_false, if_false, if_true]
      rw [prune, ascii_lines, pruneL_eq]
      exact congrArg _
        (c8_export_ascii_children (ch.filter TreeItem.checked) _
          (fun c hc => (List.mem_filter.mp hc).2))
termination_by t _ _ => sizeOf t
decreasing_by
  have := sizeOf_filter_le TreeItem.checked ch
  simp only [TreeItem.mk.sizeOf_spec]
  omega

/-- The list version of C8: over a list of checked nodes, the indexed
`child_is_last` loop of the export and the one of the ASCII rendering agree. -/
theorem c8_export_ascii_children : ∀ (cs : List TreeItem) (deeper : String),
    (∀ c ∈ cs, TreeItem.checked c = true) →
      build_text_children cs deeper = ascii_children (cs.map prune) deeper
  | [], _, _ => by rw [build_text_children]; rfl
  | [c], deeper, h => by
    rw [build_text_children, List.map_cons, List.map_nil, ascii_children]
    rw [c8_export_is_pruned_ascii c deeper true]
    rw [h c (by simp)]
    simp
  | c :: c2 :: rest, deeper, h => by
    rw [build_text_children, List.map_cons, List.map_cons, ascii_children]
    rw [c8_export_is_pruned_ascii c deeper false]
    rw [h c (by simp)]
    simp only [if_true]
    rw [c8_export_ascii_children (c2 :: rest) deeper (fun x hx => h x (by simp [hx]))]
    rw [List.map_cons]
termination_by cs _ _ => sizeOf cs
decreasing_by
  · simp +arith
  · simp +arith
  · simp +arith

end

mutual

theorem draw_rows_count : ∀ (t : TreeItem) (pre : String) (il : Bool),
    (draw_tree_item t pre il).length = visibleRowCount t
  | .mk p d hp ck ex ch, pre, il => by
    rw [draw_tree_item, visibleRowCount]
    cases hcond : d && (ex == some true) with
    | true =>
      simp only [hcond, if_true, List.length_cons]
      rw [draw_rows_countL ch _]
      omega
    | false =>
      simp [hcond]
termination_by t _ _ => sizeOf t
decreasing_by
  simp only [TreeItem.mk.sizeOf_spec]
  omega

theorem draw_rows_countL : ∀ (cs : List TreeItem) (deeper : String),
    (draw_children cs deeper).length = visibleRowCountL cs
  | [], _ => by rw [draw_children, visibleRowCountL]; rfl
  | [c], deeper => by
    rw [draw_children, visibleRowCountL, visibleRowCountL]
    rw [draw_rows_count c deeper true]
    omega
  | c :: c2 :: rest, deeper => by
    rw [draw_children, visibleRowCountL, List.length_append]
    rw [draw_rows_count c deeper false, draw_rows_countL (c2 :: rest) deeper]
termination_by cs _ => sizeOf cs
decreasing_by
  · simp +arith
  · simp +arith
  · simp +arith

end

/-- C9: the layout traversal emits exactly the visible rows — one row per
node, descending into a directory's children iff it is expanded; in
particular a collapsed directory (`expanded == False`) contributes exactly
one row and none of its descendants contribute rows. -/
theorem c9_layout_visits_expanded_only (t : TreeItem) (pre : String) (il : Bool) :
    (draw_tree_item t pre il).length = visibleRowCount t ∧
    (t.is_dir = true → t.expanded = some false → (draw_tree_item t pre il).length = 1) := by
  refine ⟨draw_rows_count t pre il, fun hd hex => ?_⟩
  rw [draw_rows_count t pre il]
  cases t with
  | mk p d hp ck ex ch =>
    rw [TreeItem.expanded] at hex
    subst hex
    rw [visibleRowCount]
    simp

/-- Witness for C9 at a concrete input: the collapsed directory `exD`
(it has a child) occupies exactly one row. -/
theorem c9_witness : (draw_tree_item exD ("") true).length = 1 :=
  (c9_layout_visits_expanded_only exD ("") true).2 rfl rfl

/-- C6: a `PermissionError` while listing a directory does not fail the scan:
that directory becomes a childless leaf (still a directory node), exactly one
`Permission denied` warning is logged for it, and a listable directory gets
one scanned child per kept entry regardless of what those entries contain —
an unreadable subdirectory never aborts the scan of its siblings. -/
theorem c6_permission_error_is_local (p : List String) (n : String) (u : Unit) (eh : Bool) :
    (build_tree_structure p (.dir n (.error u)) eh).children = [] ∧
    (build_tree_structure p (.dir n (.error u)) eh).is_dir = true ∧
    scan_warnings p (.dir n (.error u)) eh = ["Permission denied: " ++ pathStr p] ∧
    ∀ (l : List FS),
      (build_tree_structure p (.dir n (.ok l)) eh).children.length =
        (kept_entries l eh).length := by
  refine ⟨?_, ?_, ?_, ?_⟩
  · rw [build_tree_structure]
    rfl
  · rw [build_tree_structure]
    rfl
  · rw [scan_warnings]
  · intro l
    rw [build_dir_ok, TreeItem.children, List.length_map]

/-- Boolean pairwise-ordering check: every element relates to all later ones. -/
def pairwiseB (le : α → α → Bool) : List α → Bool
  | [] => true
  | a :: as => as.all (le a) && pairwiseB le as

theorem fs_le_total (a b : FS) : fs_le a b = true ∨ fs_le b a = true := by
  simp only [fs_le, decide_eq_true_eq]
  exact le_total (fs_key a) (fs_key b)

theorem fs_le_trans {a b c : FS} (h1 : fs_le a b = true) (h2 : fs_le b c = true) :
    fs_le a c = true := by
  simp only [fs_le, decide_eq_true_eq] at *
  exact le_trans h1 h2

theorem all_insertSorted {le : α → α → Bool} {q : α → Bool} {a : α} {l : List α}
    (ha : q a = true) (hl : l.all q = true) : (insertSorted le a l).all q = true := by
  induction l with
  | nil => simp [insertSorted, ha]
  | cons b bs ih =>
    rw [List.all_cons, Bool.and_eq_true] at hl
    rw [insertSorted]
    cases hle : le a b with
    | true => simp [ha, hl.1, hl.2]
    | false =>
      rw [if_neg (by simp [hle])]
      simp only [List.all_cons, Bool.and_eq_true]
      exact ⟨hl.1, ih hl.2⟩

theorem pairwiseB_insertSorted {le : α → α → Bool}
    (htot : ∀ a b, le a b = true ∨ le b a = true)
    (htrans : ∀ {a b c}, le a b = true → le b c = true → le a c = true)
    {a : α} {l : List α} (h : pairwiseB le l = true) :
    pairwiseB le (insertSorted le a l) = true := by
  induction l with
  | nil => simp [insertSorted, pairwiseB]
  | cons b bs ih =>
    rw [pairwiseB, Bool.and_eq_true] at h
    rw [insertSorted]
    cases hle : le a b with
    | true =>
      rw [if_pos rfl]
      rw [pairwiseB, pairwiseB, List.all_cons]
      rw [hle, h.1, h.2]
      have : bs.all (le a) = true := by
        rw [List.all_eq_true]
        intro x hx
        exact htrans hle (List.all_eq_true.mp h.1 x hx)
      simp [this]
    | false =>
      rw [if_neg (by simp [hle])]
      rw [pairwiseB, Bool.and_eq_true]
      refine ⟨?_, ih h.2⟩
      have hba : le b a = true := (htot a b).resolve_left (by simp [hle])
      exact all_insertSorted hba h.1

theorem pairwiseB_sortByB {le : α → α → Bool}
    (htot : ∀ a b, le a b = true ∨ le b a = true)
    (htrans : ∀ {a b c}, le a b = true → le b c = true → le a c = true)
    (l : List α) : pairwiseB le (sortByB le l) = true := by
  induction l with
  | nil => rfl
  | cons a as ih => exact pairwiseB_insertSorted htot htrans ih

theorem pairwiseB_filter {le : α → α → Bool} {q : α → Bool} {l : List α}
    (h : pairwiseB le l = true) : pairwiseB le (l.filter q) = true := by
  induction l with
  | nil => rfl
  | cons a as ih =>
    rw [pairwiseB, Bool.and_eq_true] at h
    rw [List.filter_cons]
    cases hq : q a with
    | true =>
      rw [if_pos rfl, pairwiseB, Bool.and_eq_true]
      refine ⟨?_, ih h.2⟩
      rw [List.all_eq_true]
      intro x hx
      exact List.all_eq_true.mp h.1 x (List.mem_filter.mp hx).1
    | false =>
      rw [if_neg (by simp)]
      exact ih h.2

theorem pairwiseB_map {le : α → α → Bool} {β : Type} {lf : β → β → Bool}
    (f : α → β) (hpt : ∀ a b, lf (f a) (f b) = le a b) {l : List α}
    (h : pairwiseB le l = true) : pairwiseB lf (l.map f) = true := by
  induction l with
  | nil => rfl
  | cons a as ih =>
    rw [pairwiseB, Bool.and_eq_true] at h
    rw [List.map_cons, pairwiseB, Bool.and_eq_true]
    refine ⟨?_, ih h.2⟩
    rw [List.all_eq_true]
    intro x hx
    obtain ⟨b, hb, rfl⟩ := List.mem_map.mp hx
    rw [hpt a b]
    exact List.all_eq_true.mp h.1 b hb

theorem takeWhile_all_append {p : α → Bool} {A B : List α}
    (hA : ∀ a ∈ A, p a = true) (hB : ∀ b ∈ B, p b = false) :
    (A ++ B).takeWhile p = A ∧ (A ++ B).dropWhile p = B := by
  induction A with
  | nil =>
    simp only [List.nil_append]
    cases B with
    | nil => exact ⟨rfl, rfl⟩
    | cons b bs =>
      have hb := hB b (by simp)
      rw [List.takeWhile_cons, List.dropWhile_cons]
      simp [hb]
  | cons a as ih =>
    have ha := hA a (by simp)
    have ih2 := ih (fun x hx => hA x (by simp [hx]))
    simp only [List.cons_append, List.takeWhile_cons, List.dropWhile_cons, ha]
    simp only [if_true]
    exact ⟨by rw [ih2.1], by rw [ih2.2]⟩

/-- The sort key of a scanned node, recovered from its stored path: the
lower-cased entry name (`p.name.lower()`). -/
def item_le (a b : TreeItem) : Bool :=
  decide ((pathName a.path).toLower ≤ (pathName b.path).toLower)

/-- Claim C5 on one `children` list: a directories-prefix then a files-suffix,
each sorted ascending by lower-cased name. -/
def childrenOkB (cs : List TreeItem) : Bool :=
  (cs.dropWhile TreeItem.is_dir).all (fun c => !c.is_dir) &&
  pairwiseB item_le (cs.takeWhile TreeItem.is_dir) &&
  pairwiseB item_le (cs.dropWhile TreeItem.is_dir)

mutual

/-- Claim C5 on a whole tree: every node's `children` list is a sorted
directories-prefix followed by a sorted files-suffix. -/
def checkC5 : TreeItem → Bool
  | .mk _ _ _ _ _ ch => childrenOkB ch && checkC5L ch

def checkC5L : List TreeItem → Bool
  | [] => true
  | c :: cs => checkC5 c && checkC5L cs

end

theorem checkC5L_of_mem {cs : List TreeItem} (h : ∀ c ∈ cs, checkC5 c = true) :
    checkC5L cs = true := by
  induction cs with
  | nil => rfl
  | cons c cs ih =>
    rw [checkC5L, Bool.and_eq_true]
    exact ⟨h c (by simp), ih (fun x hx => h x (by simp [hx]))⟩

theorem build_is_dir (p : List String) (e : FS) (eh : Bool) :
    (build_tree_structure p e eh).is_dir = e.is_dir := by
  cases e with
  | file n => rw [build_tree_structure]; rfl
  | other n => rw [build_tree_structure]; rfl
  | dir n lst =>
    cases lst with
    | error u => rw [build_tree_structure]; rfl
    | ok l => rw [build_dir_ok]; rfl

theorem build_path (p : List String) (e : FS) (eh : Bool) :
    (build_tree_structure p e eh).path = p := by
  cases e with
  | file n => rw [build_tree_structure]; rfl
  | other n => rw [build_tree_structure]; rfl
  | dir n lst =>
    cases lst with
    | error u => rw [build_tree_structure]; rfl
    | ok l => rw [build_dir_ok]; rfl

theorem is_dir_set_parent (t : TreeItem) : (set_parent t).is_dir = t.is_dir := by
  cases t
  rfl

theorem path_set_parent (t : TreeItem) : (set_parent t).path = t.path := by
  cases t
  rfl

theorem checkC5_set_parent (t : TreeItem) : checkC5 (set_parent t) = checkC5 t := by
  cases t
  rw [set_parent, checkC5, checkC5]

theorem is_file_not_is_dir {e : FS} (h : FS.is_file e = true) : FS.is_dir e = false := by
  cases e with
  | file n => rfl
  | dir n lst => simp [FS.is_file] at h
  | other n => rfl

theorem pathName_concat (p : List String) (s : String) : pathName (p ++ [s]) = s := by
  rw [pathName, List.getLastD_concat]

theorem kept_entries_split (l : List FS) (eh : Bool) :
    ∃ A B, kept_entries l eh = A ++ B ∧
      (∀ x ∈ A, FS.is_dir x = true) ∧ (∀ x ∈ B, FS.is_dir x = false) ∧
      pairwiseB fs_le A = true ∧ pairwiseB fs_le B = true := by
  have hsd : pairwiseB fs_le (sortByB fs_le (l.filter FS.is_dir)) = true :=
    pairwiseB_sortByB fs_le_total (fun h1 h2 => fs_le_trans h1 h2) _
  have hsf : pairwiseB fs_le (sortByB fs_le (l.filter FS.is_file)) = true :=
    pairwiseB_sortByB fs_le_total (fun h1 h2 => fs_le_trans h1 h2) _
  have hmd : ∀ x ∈ sortByB fs_le (l.filter FS.is_dir), FS.is_dir x = true := by
    intro x hx
    exact (List.mem_filter.mp (mem_sortByB.mp hx)).2
  have hmf : ∀ x ∈ sortByB fs_le (l.filter FS.is_file), FS.is_dir x = false := by
    intro x hx
    exact is_file_not_is_dir (List.mem_filter.mp (mem_sortByB.mp hx)).2
  cases eh with
  | false =>
    refine ⟨_, _, ?_, hmd, hmf, hsd, hsf⟩
    rw [kept_entries]
    simp
  | true =>
    refine ⟨(sortByB fs_le (l.filter FS.is_dir)).filter (fun e => !is_hidden e),
      (sortByB fs_le (l.filter FS.is_file)).filter (fun e => !is_hidden e), ?_, ?_, ?_, ?_, ?_⟩
    · rw [kept_entries]
      simp [List.filter_append]
    · intro x hx
      exact hmd x (List.mem_filter.mp hx).1
    · intro x hx
      exact hmf x (List.mem_filter.mp hx).1
    · exact pairwiseB_filter hsd
    · exact pairwiseB_filter hsf

theorem childrenOkB_append {A B : List TreeItem}
    (hA : ∀ x ∈ A, x.is_dir = true) (hB : ∀ x ∈ B, x.is_dir = false)
    (sA : pairwiseB item_le A = true) (sB : pairwiseB item_le B = true) :
    childrenOkB (A ++ B) = true := by
  obtain ⟨ht, hd⟩ := takeWhile_all_append hA hB
  rw [childrenOkB, ht, hd, sA, sB]
  simp only [Bool.and_true, Bool.true_and]
  rw [List.all_eq_true]
  intro x hx
  simp [hB x hx]

/-- C5: in every tree produced by `build_tree_structure` — for any filesystem,
scan path and hidden-files setting — every node's `children` list is a
directories-prefix followed by a files-suffix, each sorted ascending by
case-insensitively compared (lower-cased) name. -/
theorem c5_children_partitioned_sorted (e : FS) :
    ∀ (p : List String) (eh : Bool), checkC5 (build_tree_structure p e eh) = true := by
  induction e using FS.fsInduction with
  | hfile n => intro p eh; rw [build_tree_structure]; rfl
  | hother n => intro p eh; rw [build_tree_structure]; rfl
  | herr n u => intro p eh; rw [build_tree_structure]; rfl
  | hok n l ih =>
    intro p eh
    rw [build_dir_ok, checkC5, Bool.and_eq_true]
    constructor
    · obtain ⟨A, B, hsplit, hA, hB, sA, sB⟩ := kept_entries_split l eh
      rw [hsplit, List.map_append]
      have hpt : ∀ a b : FS,
          item_le (set_parent (build_tree_structure (p ++ [a.name]) a eh))
              (set_parent (build_tree_structure (p ++ [b.name]) b eh)) = fs_le a b := by
        intro a b
        rw [item_le, fs_le, path_set_parent, path_set_parent, build_path, build_path,
          pathName_concat, pathName_concat]
        rfl
      refine childrenOkB_append ?_ ?_ ?_ ?_
      · intro x hx
        obtain ⟨a, ha, rfl⟩ := List.mem_map.mp hx
        rw [is_dir_set_parent, build_is_dir]
        exact hA a ha
      · intro x hx
        obtain ⟨b, hb, rfl⟩ := List.mem_map.mp hx
        rw [is_dir_set_parent, build_is_dir]
        exact hB b hb
      · exact pairwiseB_map _ hpt sA
      · exact pairwiseB_map _ hpt sB
    · apply checkC5L_of_mem
      intro c hc
      obtain ⟨a, ha, rfl⟩ := List.mem_map.mp hc
      rw [checkC5_set_parent]
      exact ih a (mem_kept_entries ha) (p ++ [a.name]) eh

theorem purge_file (n : String) : purgeFS (.file n) = .file n := by
  rw [purgeFS]
  intro m l h
  exact FS.noConfusion h

theorem purge_other (n : String) : purgeFS (.other n) = .other n := by
  rw [purgeFS]
  intro m l h
  exact FS.noConfusion h

theorem purge_dir_err (n : String) (u : Unit) :
    purgeFS (.dir n (.error u)) = .dir n (.error u) := by
  rw [purgeFS]
  intro m l h
  have h2 := FS.noConfusion h (fun _ hl => hl)
  exact Except.noConfusion h2

theorem purge_name (e : FS) : (purgeFS e).name = e.name := by
  cases e with
  | file n => rw [purge_file]
  | other n => rw [purge_other]
  | dir n lst =>
    cases lst with
    | error u => rw [purge_dir_err]
    | ok l => rw [purge_dir_ok]; rfl

theorem purge_is_dir (e : FS) : (purgeFS e).is_dir = e.is_dir := by
  cases e with
  | file n => rw [purge_file]
  | other n => rw [purge_other]
  | dir n lst =>
    cases lst with
    | error u => rw [purge_dir_err]
    | ok l => rw [purge_dir_ok]; rfl

theorem purge_is_file (e : FS) : (purgeFS e).is_file = e.is_file := by
  cases e with
  | file n => rw [purge_file]
  | other n => rw [purge_other]
  | dir n lst =>
    cases lst with
    | error u => rw [purge_dir_err]
    | ok l => rw [purge_dir_ok]; rfl

theorem keep_of_is_dir {a : FS} (h : FS.is_dir a = true) : keep_entry a = true := by
  rw [keep_entry, h]
  rfl

theorem keep_of_is_file {a : FS} (h : FS.is_file a = true) : keep_entry a = true := by
  rw [keep_entry, h]
  simp

theorem keep_and_is_dir (a : FS) : (FS.is_dir a && keep_entry a) = FS.is_dir a := by
  cases h : FS.is_dir a with
  | true => rw [keep_of_is_dir h]; rfl
  | false => simp [h]

theorem keep_and_is_file (a : FS) : (FS.is_file a && keep_entry a) = FS.is_file a := by
  cases h : FS.is_file a with
  | true => rw [keep_of_is_file h]; rfl
  | false => simp [h]

theorem fs_le_purge (a b : FS) : fs_le (purgeFS a) (purgeFS b) = fs_le a b := by
  rw [fs_le, fs_le, fs_key, fs_key, fs_key, fs_key, purge_name, purge_name]

theorem is_hidden_purge (e : FS) : is_hidden (purgeFS e) = is_hidden e := by
  rw [is_hidden, is_hidden, purge_name]

theorem insertSorted_map {β : Type} {f : α → β} {le : α → α → Bool} {lf : β → β → Bool}
    (hpt : ∀ a b, lf (f a) (f b) = le a b) (a : α) (l : List α) :
    insertSorted lf (f a) (l.map f) = (insertSorted le a l).map f := by
  induction l with
  | nil => rfl
  | cons b bs ih =>
    rw [List.map_cons, insertSorted, insertSorted, hpt a b]
    cases h : le a b with
    | true => simp
    | false =>
      simp only [Bool.false_eq_true, if_false, List.map_cons]
      rw [ih]

theorem sortByB_map {β : Type} {f : α → β} {le : α → α → Bool} {lf : β → β → Bool}
    (hpt : ∀ a b, lf (f a) (f b) = le a b) (l : List α) :
    sortByB lf (l.map f) = (sortByB le l).map f := by
  induction l with
  | nil => rfl
  | cons a as ih =>
    rw [List.map_cons, sortByB, sortByB, ih]
    exact insertSorted_map hpt a (sortByB le as)

theorem kept_entries_purge (l : List FS) (eh : Bool) :
    kept_entries ((l.filter keep_entry).map purgeFS) eh = (kept_entries l eh).map purgeFS := by
  have hdirs : ((l.filter keep_entry).map purgeFS).filter FS.is_dir =
      (l.filter FS.is_dir).map purgeFS := by
    rw [List.filter_map]
    have h1 : (l.filter keep_entry).filter (FS.is_dir ∘ purgeFS) =
        (l.filter keep_entry).filter FS.is_dir :=
      List.filter_congr (fun x _ => purge_is_dir x)
    rw [h1, List.filter_filter]
    exact congrArg _ (List.filter_congr (fun x _ => keep_and_is_dir x))
  have hfiles : ((l.filter keep_entry).map purgeFS).filter FS.is_file =
      (l.filter FS.is_file).map purgeFS := by
    rw [List.filter_map]
    have h1 : (l.filter keep_entry).filter (FS.is_file ∘ purgeFS) =
        (l.filter keep_entry).filter FS.is_file :=
      List.filter_congr (fun x _ => purge_is_file x)
    rw [h1, List.filter_filter]
    exact congrArg _ (List.filter_congr (fun x _ => keep_and_is_file x))
  rw [kept_entries, kept_entries, hdirs, hfiles,
    sortByB_map fs_le_purge, sortByB_map fs_le_purge, ← List.map_append]
  cases eh with
  | false => simp
  | true =>
    simp only [if_true]
    rw [List.filter_map]
    exact congrArg _ (List.filter_congr (fun x _ => by rw [Function.comp_apply, is_hidden_purge]))

/-- C10: the scan result — tree and logged warnings — is unchanged when every
filesystem entry that is neither a directory nor a regular file is removed
beforehand: such entries are silently omitted and never appear among any
node's children, for every scanned directory and either value of the
hidden-files flag. -/
theorem c10_other_entries_omitted (e : FS) :
    ∀ (p : List String) (eh : Bool),
      build_tree_structure p (purgeFS e) eh = build_tree_structure p e eh ∧
      scan_warnings p (purgeFS e) eh = scan_warnings p e eh := by
  induction e using FS.fsInduction with
  | hfile n => exact fun p eh => by rw [purge_file]; exact ⟨rfl, rfl⟩
  | hother n => exact fun p eh => by rw [purge_other]; exact ⟨rfl, rfl⟩
  | herr n u => exact fun p eh => by rw [purge_dir_err]; exact ⟨rfl, rfl⟩
  | hok n l ih =>
    intro p eh
    constructor
    · rw [purge_dir_ok, build_dir_ok, build_dir_ok, kept_entries_purge, List.map_map]
      refine congrArg _ (List.map_congr_left ?_)
      intro a ha
      have hmem := mem_kept_entries ha
      rw [Function.comp_apply, purge_name]
      rw [(ih a hmem (p ++ [a.name]) eh).1]
    · rw [purge_dir_ok, warnings_dir_ok, warnings_dir_ok, kept_entries_purge, List.map_map]
      refine congrArg _ (List.map_congr_left ?_)
      intro a ha
      have hmem := mem_kept_entries ha
      rw [Function.comp_apply, purge_name]
      rw [(ih a hmem (p ++ [a.name]) eh).2]
